import Mathlib

/-!
Verification of the redaction-and-formatting pipeline of
`0x00-personal_data/filtered_logger.py`.

The central function of the source is

  def filter_datum(fields, redaction, message, separator):
      pattern = f"({'|'.join(fields)})=([^{separator}]+)"
      return re.sub(pattern, lambda m: f"{m.group(1)}={redaction}", message)

We embed it shallowly: the compiled regular expression
`(f1|f2|...)=([^sep]+)` together with `re.sub`'s left-to-right scan is
modelled as an executable scanner over `List Char`.  At every position the
scanner tries the alternatives in order (Python alternation is ordered);
an alternative `f` matches when the text starts with `f` followed by `=`
and at least one character different from the separator, and the matched
value extends greedily up to (excluding) the next separator or the end of
the string.  A match `f=value` is replaced by `f=token` and scanning
resumes after the match; at a non-matching position one character is
copied and scanning resumes at the next position.  Field names are taken
as regex-literal names and the separator as a single character, which is
what the spec's input constraints state and what every call in the
repository uses.  Note that `'|'.join([])` is the empty string, so an
empty field list compiles to the pattern `()=([^sep]+)` whose first group
is the empty alternative.

The row serializer `format_row`, the null-to-empty conversion of `main`,
and `RedactingFormatter.format` are embedded alongside.
-/

/-- Boolean prefix test on character lists (the test `text.startswith(p)`
used to express that a pattern alternative matches at a position). -/
def pfx : List Char → List Char → Bool
  | [], _ => true
  | _ :: _, [] => false
  | a :: xs, b :: ys => a == b && pfx xs ys

/-- One alternative `f` of the compiled pattern `(f1|...|fn)=([^sep]+)`
matches at the head of `s` iff `s` begins with `f` followed by `=` and at
least one character different from the separator. -/
def fieldMatch (sep : Char) (s : List Char) (f : List Char) : Bool :=
  pfx (f ++ ['=']) s &&
    match s.drop (f.length + 1) with
    | [] => false
    | c :: _ => c != sep

/-- Ordered-alternation choice of Python's regex engine: the first
alternative (in the order the fields were joined) that matches at the
head of `s`. -/
def findAlt (sep : Char) (A : List (List Char)) (s : List Char) : Option (List Char) :=
  A.find? (fun f => fieldMatch sep s f)

/-- The left-to-right scan of `re.sub`, written with explicit fuel so that
the definition is structural (the fuel is always at least the length of
the text, see `subChars`).  A match `f=value` is rewritten to `f=token`
and the scan resumes at the first separator after the value; otherwise
one character is copied. -/
def subFuel (sep : Char) (A : List (List Char)) (token : List Char) :
    Nat → List Char → List Char
  | _, [] => []
  | 0, c :: s => c :: s
  | n + 1, c :: s =>
    match findAlt sep A (c :: s) with
    | some f =>
        f ++ '=' :: (token ++ subFuel sep A token n
          (((c :: s).drop (f.length + 1)).dropWhile (fun a => a != sep)))
    | none => c :: subFuel sep A token n s

/-- `re.sub` of the pattern `(alt1|...|altk)=([^sep]+)` with replacement
`\1=token`, on character lists. -/
def subChars (sep : Char) (A : List (List Char)) (token : List Char)
    (s : List Char) : List Char :=
  subFuel sep A token s.length s

/-- The alternative list of the group `({'|'.join(fields)})`: joining the
empty field list yields the empty pattern, i.e. the single empty
alternative. -/
def alts : List (List Char) → List (List Char)
  | [] => [[]]
  | fs => fs

/-- Model of `filter_datum` (filtered_logger.py lines 19-24): replace every
occurrence of `field=value` (value = maximal nonempty separator-free run)
by `field=redaction`. -/
def filter_datum (fields : List String) (redaction : String) (message : String)
    (separator : Char) : String :=
  String.mk (subChars separator (alts (fields.map String.toList))
    redaction.toList message.toList)

/-- Model of Python's `j.join(parts)`: the parts joined with `j` between
consecutive parts and no trailing copy. -/
def joinStrings (j : String) : List String → String
  | [] => ""
  | [x] => x
  | x :: xs => x ++ j ++ joinStrings j xs

/-- Character-list counterpart of `joinStrings`, used to reason about the
joined messages. -/
def joinChars (j : List Char) : List (List Char) → List Char
  | [] => []
  | [x] => x
  | x :: xs => x ++ j ++ joinChars j xs

/-- One `key=value` pair as scanned text. -/
def pairChars (p : List Char × List Char) : List Char := p.1 ++ '=' :: p.2

/-- Model of `format_row` (filtered_logger.py lines 94-108):
`"; ".join(f"{header}={value}" for header, value in zip(headers, row))`. -/
def format_row (row : List String) (headers : List String) : String :=
  joinStrings "; " (List.zipWith (fun h v => h ++ "=" ++ v) headers row)

/-- Model of the conversion in `main` (filtered_logger.py line 130):
`str(value) if value is not None else ""`, on string-valued columns. -/
def toText : Option String → String
  | some s => s
  | none => ""

/-- The row-to-message step of `main` (filtered_logger.py lines 129-131):
null values are converted to the empty string and the result is handed to
`format_row`. -/
def row_to_message (row : List (Option String)) (headers : List String) : String :=
  format_row (row.map toText) headers

/-- The fields of a `logging.LogRecord` that the formatter's layout
`"[HOLBERTON] %(name)s %(levelname)s %(asctime)-15s: %(message)s"` and the
redaction step touch or read: the message body plus the structural
metadata (logger name, severity, timestamp, source context). -/
structure LogRecord where
  name : String
  levelname : String
  asctime : String
  pathname : String
  lineno : Nat
  msg : String

/-- Left-justified padding of `%(asctime)-15s`. -/
def padRight (s : String) (n : Nat) : String :=
  s ++ String.mk (List.replicate (n - s.length) ' ')

/-- The layout rendering performed by `logging.Formatter.format` with the
template `"[HOLBERTON] %(name)s %(levelname)s %(asctime)-15s: %(message)s"`. -/
def renderHolberton (r : LogRecord) : String :=
  "[HOLBERTON] " ++ r.name ++ " " ++ r.levelname ++ " " ++ padRight r.asctime 15
    ++ ": " ++ r.msg

namespace RedactingFormatter

/-- `RedactingFormatter.REDACTION` (filtered_logger.py line 30). -/
def REDACTION : String := "***"

/-- `RedactingFormatter.SEPARATOR` (filtered_logger.py line 32). -/
def SEPARATOR : Char := ';'

/-- Model of `RedactingFormatter.format` (filtered_logger.py lines 44-56):
the method overwrites `record.msg` with the redacted body and then
delegates to the inherited layout rendering.  The mutation of the Python
record is modelled by returning the updated record next to the rendered
line. -/
def format (fields : List String) (r : LogRecord) : LogRecord × String :=
  let r' : LogRecord := { r with msg := filter_datum fields REDACTION r.msg SEPARATOR }
  (r', renderHolberton r')

end RedactingFormatter

/-! ### Basic facts about the prefix test and the pattern alternatives -/

theorem pfx_iff : ∀ (x y : List Char), pfx x y = true ↔ ∃ t, y = x ++ t := by
  intro x
  induction x with
  | nil => intro y; simp [pfx]
  | cons a xs ih =>
    intro y
    cases y with
    | nil =>
      simp only [pfx, List.cons_append]
      constructor
      · intro h; cases h
      · rintro ⟨t, h⟩; cases h
    | cons b ys =>
      simp only [pfx, Bool.and_eq_true, beq_iff_eq, ih, List.cons_append]
      constructor
      · rintro ⟨rfl, t, rfl⟩; exact ⟨t, rfl⟩
      · rintro ⟨t, h⟩
        injection h with h1 h2
        exact ⟨h1.symm, t, h2⟩

theorem pfx_append_right (x r : List Char) : pfx x (x ++ r) = true :=
  (pfx_iff x (x ++ r)).2 ⟨r, rfl⟩

/-- Over texts shaped `f=...` with `=`-free alternative names, an
alternative that matches must be the name `f` itself. -/
theorem pfx_eq_of_eqFree : ∀ (g f z : List Char), '=' ∉ g → '=' ∉ f →
    pfx (g ++ ['=']) (f ++ '=' :: z) = true → g = f := by
  intro g
  induction g with
  | nil =>
    intro f z _ hf h
    cases f with
    | nil => rfl
    | cons b fs =>
      exfalso
      simp only [List.nil_append, List.cons_append, pfx, Bool.and_eq_true,
        beq_iff_eq] at h
      exact hf (h.1 ▸ List.mem_cons_self b fs)
  | cons a gs ih =>
    intro f z hg hf h
    cases f with
    | nil =>
      exfalso
      simp only [List.cons_append, List.nil_append, pfx, Bool.and_eq_true,
        beq_iff_eq] at h
      exact hg (h.1 ▸ List.mem_cons_self a gs)
    | cons b fs =>
      simp only [List.cons_append, pfx, Bool.and_eq_true, beq_iff_eq] at h
      have hg' : '=' ∉ gs := fun hx => hg (List.mem_cons_of_mem a hx)
      have hf' : '=' ∉ fs := fun hx => hf (List.mem_cons_of_mem b hx)
      rw [h.1, ih fs z hg' hf' h.2]

theorem pfx_split : ∀ (w x r : List Char), pfx x (w ++ r) = true →
    pfx x w = true ∨ ∃ x₂, x = w ++ x₂ ∧ pfx x₂ r = true := by
  intro w
  induction w with
  | nil => intro x r h; right; exact ⟨x, rfl, h⟩
  | cons b ws ih =>
    intro x r h
    cases x with
    | nil => left; rfl
    | cons a xs =>
      simp only [List.cons_append, pfx, Bool.and_eq_true, beq_iff_eq] at h
      obtain ⟨rfl, h2⟩ := h
      rcases ih xs r h2 with h3 | ⟨x₂, rfl, h4⟩
      · left; simp [pfx, h3]
      · right; exact ⟨x₂, rfl, h4⟩

theorem append_pair (f z : List Char) : f ++ '=' :: z = (f ++ ['=']) ++ z := by
  simp

theorem drop_pair (f z : List Char) : (f ++ '=' :: z).drop (f.length + 1) = z := by
  rw [append_pair]
  have h2 : f.length + 1 = (f ++ ['=']).length := by simp
  rw [h2, List.drop_left]

theorem pfx_ne_nil (f : List Char) : pfx (f ++ ['=']) [] = false := by
  cases f <;> rfl

/-! ### Suffix and dropWhile helpers -/

theorem suffix_append_cases : ∀ (x y w : List Char), w <:+ (x ++ y) →
    w <:+ y ∨ ∃ w', w = w' ++ y ∧ w' <:+ x := by
  intro x
  induction x with
  | nil => intro y w h; left; simpa using h
  | cons a xs ih =>
    intro y w h
    obtain ⟨z, hz⟩ := h
    cases z with
    | nil =>
      right
      refine ⟨a :: xs, ?_, List.suffix_refl _⟩
      simpa using hz
    | cons b zs =>
      rw [List.cons_append, List.cons_append] at hz
      injection hz with h1 h2
      rcases ih y w ⟨zs, h2⟩ with h3 | ⟨w', hw, hsuf⟩
      · left; exact h3
      · right; exact ⟨w', hw, hsuf.trans (List.suffix_cons a xs)⟩

theorem suffix_singleton (a : Char) (w : List Char) (h : w <:+ [a]) (hne : w ≠ []) :
    w = [a] := by
  rcases List.suffix_cons_iff.1 h with h1 | h1
  · exact h1
  · exact absurd (List.eq_nil_of_length_eq_zero (Nat.le_zero.1 h1.length_le)) hne

theorem head?_mem {a : Char} : ∀ {l : List Char}, l.head? = some a → a ∈ l := by
  intro l h
  cases l with
  | nil => cases h
  | cons b t => injection h with h; exact h ▸ List.mem_cons_self b t

theorem length_dropWhileLe (p : Char → Bool) : ∀ (l : List Char),
    (l.dropWhile p).length ≤ l.length := by
  intro l
  induction l with
  | nil => simp [List.dropWhile]
  | cons a l ih =>
    rw [List.dropWhile_cons]
    by_cases h : p a = true
    · simp only [h, if_true]
      exact Nat.le_succ_of_le ih
    · simp [h]

theorem dropWhile_append_all (p : Char → Bool) : ∀ (l₁ l₂ : List Char),
    (∀ a ∈ l₁, p a = true) → (l₁ ++ l₂).dropWhile p = l₂.dropWhile p := by
  intro l₁
  induction l₁ with
  | nil => simp
  | cons a l ih =>
    intro l₂ h
    rw [List.cons_append, List.dropWhile_cons, if_pos (h a (List.mem_cons_self a l))]
    exact ih l₂ fun b hb => h b (List.mem_cons_of_mem a hb)

theorem dropWhile_eq_self_of_head (p : Char → Bool) (l : List Char)
    (h : ∀ a, l.head? = some a → p a = false) : l.dropWhile p = l := by
  cases l with
  | nil => rfl
  | cons a t =>
    rw [List.dropWhile_cons, if_neg]
    rw [h a rfl]
    simp

theorem head?_dropWhile_false (p : Char → Bool) : ∀ (l : List Char) (a : Char),
    (l.dropWhile p).head? = some a → p a = false := by
  intro l
  induction l with
  | nil => intro a h; cases h
  | cons b t ih =>
    intro a h
    rw [List.dropWhile_cons] at h
    by_cases hb : p b = true
    · rw [if_pos hb] at h; exact ih a h
    · rw [if_neg hb] at h
      injection h with h
      subst h
      simpa using hb

/-! ### find? helpers -/

theorem find?_congr' {α : Type} (p q : α → Bool) : ∀ (l : List α),
    (∀ a ∈ l, p a = q a) → l.find? p = l.find? q := by
  intro l
  induction l with
  | nil => intro _; rfl
  | cons a l ih =>
    intro h
    by_cases ha : p a = true
    · rw [List.find?_cons_of_pos _ ha, List.find?_cons_of_pos _ (h a (List.mem_cons_self a l) ▸ ha)]
    · rw [List.find?_cons_of_neg _ ha, List.find?_cons_of_neg _ (h a (List.mem_cons_self a l) ▸ ha)]
      exact ih fun b hb => h b (List.mem_cons_of_mem a hb)

theorem find?_first_eq {α : Type} (p : α → Bool) (c : α) : ∀ (l : List α),
    c ∈ l → p c = true → (∀ a ∈ l, p a = true → a = c) → l.find? p = some c := by
  intro l
  induction l with
  | nil => intro h; cases h
  | cons a l ih =>
    intro hc hp hall
    by_cases ha : p a = true
    · rw [List.find?_cons_of_pos _ ha, hall a (List.mem_cons_self a l) ha]
    · rw [List.find?_cons_of_neg _ ha]
      rcases List.mem_cons.1 hc with rfl | h
      · exact absurd hp ha
      · exact ih h hp fun b hb hpb => hall b (List.mem_cons_of_mem a hb) hpb

/-! ### Structure of a pattern match -/

theorem fieldMatch_destruct {sep : Char} {s f : List Char}
    (h : fieldMatch sep s f = true) :
    ∃ c0 t', s = f ++ '=' :: (c0 :: t') ∧ c0 ≠ sep := by
  unfold fieldMatch at h
  obtain ⟨h1, h2⟩ := (Bool.and_eq_true _ _).mp h
  obtain ⟨t, ht⟩ := (pfx_iff _ _).1 h1
  rw [← append_pair] at ht
  subst ht
  rw [drop_pair] at h2
  cases t with
  | nil => simp at h2
  | cons c0 t' =>
    refine ⟨c0, t', rfl, ?_⟩
    simpa using h2

theorem fieldMatch_intro (sep : Char) (f : List Char) (c0 : Char) (t' : List Char)
    (h : c0 ≠ sep) : fieldMatch sep (f ++ '=' :: (c0 :: t')) f = true := by
  unfold fieldMatch
  rw [drop_pair]
  apply (Bool.and_eq_true _ _).mpr
  constructor
  · have hrw : f ++ '=' :: (c0 :: t') = (f ++ ['=']) ++ (c0 :: t') :=
      append_pair f (c0 :: t')
    rw [hrw]; exact pfx_append_right _ _
  · simpa using h

/-- On a text of the shape `f=z0...` with `z0` not the separator and
`=`-free names, an alternative matches exactly when it is `f`. -/
theorem fieldMatch_block_iff (sep : Char) (g f : List Char) (hg : '=' ∉ g)
    (hf : '=' ∉ f) (z0 : Char) (z' : List Char) (hz0 : z0 ≠ sep) :
    fieldMatch sep (f ++ '=' :: (z0 :: z')) g = true ↔ g = f := by
  constructor
  · intro h
    unfold fieldMatch at h
    exact pfx_eq_of_eqFree g f _ hg hf ((Bool.and_eq_true _ _).mp h).1
  · rintro rfl
    exact fieldMatch_intro sep g z0 z' hz0

/-! ### Unfolding equations for the scanner -/

theorem findAlt_nil (sep : Char) (A : List (List Char)) : findAlt sep A [] = none := by
  apply List.find?_eq_none.2
  intro f _
  simp [fieldMatch, pfx_ne_nil]

theorem subFuel_nil (sep : Char) (A : List (List Char)) (token : List Char) :
    ∀ n, subFuel sep A token n [] = [] := by
  intro n; cases n <;> rfl

theorem subFuel_succ_cons (sep : Char) (A : List (List Char)) (token : List Char)
    (n : Nat) (c : Char) (s : List Char) :
    subFuel sep A token (n + 1) (c :: s) =
      match findAlt sep A (c :: s) with
      | some f =>
          f ++ '=' :: (token ++ subFuel sep A token n
            (((c :: s).drop (f.length + 1)).dropWhile (fun a => a != sep)))
      | none => c :: subFuel sep A token n s := rfl

theorem subFuel_congr (sep : Char) (A : List (List Char)) (token : List Char) :
    ∀ (n m : Nat) (s : List Char), s.length ≤ n → s.length ≤ m →
      subFuel sep A token n s = subFuel sep A token m s := by
  intro n
  induction n with
  | zero =>
    intro m s hn _
    rw [List.eq_nil_of_length_eq_zero (Nat.le_zero.1 hn)]
    rw [subFuel_nil, subFuel_nil]
  | succ n ih =>
    intro m s hn hm
    cases s with
    | nil => rw [subFuel_nil, subFuel_nil]
    | cons c s =>
      cases m with
      | zero => simp at hm
      | succ m =>
        rw [subFuel_succ_cons, subFuel_succ_cons]
        cases hfa : findAlt sep A (c :: s) with
        | none =>
          simp only []
          have hs : s.length ≤ n := Nat.le_of_succ_le_succ hn
          have hs' : s.length ≤ m := Nat.le_of_succ_le_succ hm
          rw [ih m s hs hs']
        | some f =>
          simp only []
          have hr : (((c :: s).drop (f.length + 1)).dropWhile
              (fun a => a != sep)).length ≤ s.length := by
            calc (((c :: s).drop (f.length + 1)).dropWhile (fun a => a != sep)).length
                ≤ ((c :: s).drop (f.length + 1)).length := length_dropWhileLe _ _
              _ = (c :: s).length - (f.length + 1) := List.length_drop _ _
              _ ≤ s.length := by simp only [List.length_cons]; omega
          rw [ih m _ (le_trans hr (Nat.le_of_succ_le_succ hn))
            (le_trans hr (Nat.le_of_succ_le_succ hm))]

theorem subFuel_to_subChars (sep : Char) (A : List (List Char)) (token : List Char)
    {n : Nat} {s : List Char} (h : s.length ≤ n) :
    subFuel sep A token n s = subChars sep A token s :=
  subFuel_congr sep A token n s.length s h (Nat.le_refl _)

theorem subChars_nil (sep : Char) (A : List (List Char)) (token : List Char) :
    subChars sep A token [] = [] := rfl

theorem subChars_cons_none {sep : Char} {A : List (List Char)} {token : List Char}
    {c : Char} {s : List Char} (h : findAlt sep A (c :: s) = none) :
    subChars sep A token (c :: s) = c :: subChars sep A token s := by
  show subFuel sep A token (s.length + 1) (c :: s) = _
  rw [subFuel_succ_cons, h]
  rfl

theorem subChars_eq_some {sep : Char} {A : List (List Char)} {token : List Char}
    {s f : List Char} (h : findAlt sep A s = some f) :
    subChars sep A token s = f ++ '=' :: (token ++ subChars sep A token
      ((s.drop (f.length + 1)).dropWhile (fun a => a != sep))) := by
  cases s with
  | nil => rw [findAlt_nil] at h; cases h
  | cons c s =>
    show subFuel sep A token (s.length + 1) (c :: s) = _
    rw [subFuel_succ_cons, h]
    have hr : (((c :: s).drop (f.length + 1)).dropWhile
        (fun a => a != sep)).length ≤ s.length := by
      calc (((c :: s).drop (f.length + 1)).dropWhile (fun a => a != sep)).length
          ≤ ((c :: s).drop (f.length + 1)).length := length_dropWhileLe _ _
        _ = (c :: s).length - (f.length + 1) := List.length_drop _ _
        _ ≤ s.length := by simp only [List.length_cons]; omega
    show f ++ '=' :: (token ++ subFuel sep A token s.length
      (((c :: s).drop (f.length + 1)).dropWhile (fun a => a != sep))) = _
    rw [subFuel_to_subChars sep A token hr]

/-- The scan never changes the first character of the text. -/
theorem subChars_head? (sep : Char) (A : List (List Char)) (token : List Char)
    (s : List Char) : (subChars sep A token s).head? = s.head? := by
  cases s with
  | nil => rfl
  | cons c s =>
    cases hfa : findAlt sep A (c :: s) with
    | none => rw [subChars_cons_none hfa]; rfl
    | some f =>
      rw [subChars_eq_some hfa]
      obtain ⟨c0, t', hs, _⟩ := fieldMatch_destruct (List.find?_some hfa)
      cases f with
      | nil =>
        simp only [List.nil_append] at hs ⊢
        injection hs with h1 _
        rw [h1]; rfl
      | cons a f' =>
        simp only [List.cons_append] at hs ⊢
        injection hs with h1 _
        rw [h1]; rfl

/-- If no pattern alternative matches at any position inside `u` (taking the
continuation `y` into account), the scan copies `u` verbatim and continues
on `y`: non-conforming segments pass through unchanged, in place. -/
theorem subChars_append_of_no_match (sep : Char) (A : List (List Char))
    (token : List Char) : ∀ (u y : List Char),
    (∀ w, w <:+ u → w ≠ [] → findAlt sep A (w ++ y) = none) →
    subChars sep A token (u ++ y) = u ++ subChars sep A token y := by
  intro u
  induction u with
  | nil => intro y _; simp
  | cons c u ih =>
    intro y h
    have h0 : findAlt sep A ((c :: u) ++ y) = none :=
      h (c :: u) (List.suffix_refl _) (by simp)
    rw [List.cons_append] at h0 ⊢
    rw [subChars_cons_none h0]
    rw [ih y fun w hw hne => h w (hw.trans (List.suffix_cons c u)) hne]
    rfl

/-! ### Idempotence of the scan (for `=`-free names and separator-free token) -/

theorem fieldMatch_cons (sep : Char) (c : Char) (s : List Char) (a : Char)
    (g' : List Char) :
    fieldMatch sep (c :: s) (a :: g') = ((a == c) && fieldMatch sep s g') := by
  unfold fieldMatch
  have h1 : pfx ((a :: g') ++ ['=']) (c :: s) = ((a == c) && pfx (g' ++ ['=']) s) := rfl
  have h2 : (c :: s).drop ((a :: g').length + 1) = s.drop (g'.length + 1) := rfl
  rw [h1, h2, Bool.and_assoc]

/-- A match found on the redacted text was already present on the original
text (for `=`-free alternative names): redaction creates no new match. -/
theorem fieldMatch_transfer (sep : Char) (A : List (List Char)) (token : List Char)
    (HA : ∀ f ∈ A, '=' ∉ f) :
    ∀ (n : Nat) (s : List Char), s.length ≤ n → ∀ g, '=' ∉ g →
      fieldMatch sep (subChars sep A token s) g = true →
      fieldMatch sep s g = true := by
  intro n
  induction n with
  | zero =>
    intro s hs g _ h
    rw [List.eq_nil_of_length_eq_zero (Nat.le_zero.1 hs)] at h ⊢
    rw [subChars_nil] at h
    exact h
  | succ n ih =>
    intro s hs g hg h
    cases s with
    | nil => rw [subChars_nil] at h; exact h
    | cons c s₀ =>
      cases hfa : findAlt sep A (c :: s₀) with
      | none =>
        rw [subChars_cons_none hfa] at h
        cases g with
        | nil =>
          obtain ⟨c0, t', hs_eq, hc0⟩ := fieldMatch_destruct h
          simp only [List.nil_append] at hs_eq
          injection hs_eq with h1 h2
          have hh : s₀.head? = some c0 := by
            rw [← subChars_head? sep A token s₀, h2]; rfl
          cases s₀ with
          | nil => cases hh
          | cons d s₁ =>
            injection hh with hh
            subst hh
            rw [h1]
            exact fieldMatch_intro sep [] d s₁ hc0
        | cons a g' =>
          rw [fieldMatch_cons] at h
          obtain ⟨h1, h2⟩ := (Bool.and_eq_true _ _).mp h
          have hg' : '=' ∉ g' := fun hx => hg (List.mem_cons_of_mem a hx)
          have h3 := ih s₀ (Nat.le_of_succ_le_succ hs) g' hg' h2
          rw [fieldMatch_cons]
          exact (Bool.and_eq_true _ _).mpr ⟨h1, h3⟩
      | some f =>
        rw [subChars_eq_some hfa] at h
        have hfA := List.mem_of_find?_eq_some hfa
        have hgf : g = f := by
          unfold fieldMatch at h
          exact pfx_eq_of_eqFree g f _ hg (HA f hfA) ((Bool.and_eq_true _ _).mp h).1
        subst hgf
        exact List.find?_some hfa

/-- Core idempotence: scanning the already-redacted text again changes
nothing, provided alternative names contain no `=` and the token contains
no separator. -/
theorem subChars_idem (sep : Char) (A : List (List Char)) (token : List Char)
    (HA : ∀ f ∈ A, '=' ∉ f) (htok : sep ∉ token) :
    ∀ (n : Nat) (s : List Char), s.length ≤ n →
      subChars sep A token (subChars sep A token s) = subChars sep A token s := by
  intro n
  induction n with
  | zero =>
    intro s hs
    rw [List.eq_nil_of_length_eq_zero (Nat.le_zero.1 hs)]
    simp [subChars_nil]
  | succ n ih =>
    intro s hs
    cases s with
    | nil => simp [subChars_nil]
    | cons c s₀ =>
      cases hfa : findAlt sep A (c :: s₀) with
      | none =>
        rw [subChars_cons_none hfa]
        have hnone : findAlt sep A (c :: subChars sep A token s₀) = none := by
          apply List.find?_eq_none.2
          intro g hgA hcontra
          have htr : fieldMatch sep (c :: s₀) g = true := by
            apply fieldMatch_transfer sep A token HA (n + 1) (c :: s₀) hs g (HA g hgA)
            rw [subChars_cons_none hfa]
            exact hcontra
          exact (List.find?_eq_none.1 hfa g hgA) htr
        rw [subChars_cons_none hnone]
        rw [ih s₀ (Nat.le_of_succ_le_succ hs)]
      | some f =>
        have hm := List.find?_some hfa
        have hfA := List.mem_of_find?_eq_some hfa
        obtain ⟨c0, t', hs_eq, hc0⟩ := fieldMatch_destruct hm
        rw [subChars_eq_some hfa]
        set r := ((c :: s₀).drop (f.length + 1)).dropWhile (fun a => a != sep) with hr_def
        have hdrop : (c :: s₀).drop (f.length + 1) = c0 :: t' := by
          rw [hs_eq, drop_pair]
        have hrt : r = (c0 :: t').dropWhile (fun a => a != sep) := by
          rw [hr_def, hdrop]
        have hrhead : ∀ a, r.head? = some a → a = sep := by
          intro a ha
          have h5 := head?_dropWhile_false (fun a => a != sep) (c0 :: t') a (hrt ▸ ha)
          simpa using h5
        have hlen : r.length ≤ n := by
          have h1 : r.length ≤ (c0 :: t').length := by
            rw [hrt]; exact length_dropWhileLe _ _
          have h2 : (c :: s₀).length = (f ++ '=' :: (c0 :: t')).length := by rw [hs_eq]
          have h3 : (c :: s₀).length ≤ n + 1 := hs
          simp only [List.length_cons, List.length_append] at h1 h2 h3
          omega
        rcases token with _ | ⟨d, tok⟩
        · simp only [List.nil_append]
          have hno : ∀ w, w <:+ (f ++ ['=']) → w ≠ [] →
              findAlt sep A (w ++ subChars sep A [] r) = none := by
            intro w hw hwne
            apply List.find?_eq_none.2
            intro g hgA hcontra
            rcases suffix_append_cases f ['='] w hw with h1 | ⟨w', rfl, hw'⟩
            · have hwe := suffix_singleton '=' w h1 hwne
              subst hwe
              obtain ⟨c1, t1, hteq, hc1⟩ := fieldMatch_destruct hcontra
              cases g with
              | nil =>
                simp only [List.nil_append, List.singleton_append] at hteq
                injection hteq with h3 h4
                have h6 : r.head? = some c1 := by
                  rw [← subChars_head? sep A [] r, h4]; rfl
                exact hc1 (hrhead c1 h6)
              | cons a g' =>
                simp only [List.singleton_append, List.cons_append] at hteq
                injection hteq with h3 _
                exact (HA (a :: g') hgA) (by rw [h3]; exact List.mem_cons_self a g')
            · have hw'free : '=' ∉ w' := fun hx => (HA f hfA) (hw'.subset hx)
              have htext : (w' ++ ['=']) ++ subChars sep A [] r
                  = w' ++ '=' :: subChars sep A [] r := (append_pair _ _).symm
              rw [htext] at hcontra
              obtain ⟨c1, t1, hteq, hc1⟩ := fieldMatch_destruct hcontra
              have hgw : g = w' := by
                have hp : pfx (g ++ ['=']) (w' ++ '=' :: subChars sep A [] r) = true := by
                  have hrw : g ++ '=' :: (c1 :: t1) = (g ++ ['=']) ++ (c1 :: t1) :=
                    append_pair g (c1 :: t1)
                  rw [hteq, hrw]
                  exact pfx_append_right _ _
                exact pfx_eq_of_eqFree g w' _ (fun hx => (HA g hgA) hx) hw'free hp
              subst hgw
              have h7 : subChars sep A [] r = c1 :: t1 := by
                have := List.append_cancel_left hteq
                injection this
              have h8 : r.head? = some c1 := by
                rw [← subChars_head? sep A [] r, h7]; rfl
              exact hc1 (hrhead c1 h8)
          rw [append_pair f (subChars sep A [] r)]
          rw [subChars_append_of_no_match sep A [] (f ++ ['=']) (subChars sep A [] r) hno]
          rw [ih r hlen]
        · have hd : d ≠ sep := fun he => htok (he ▸ List.mem_cons_self d tok)
          have hpt : ∀ g ∈ A,
              fieldMatch sep (f ++ '=' :: ((d :: tok) ++ subChars sep A (d :: tok) r)) g
                = fieldMatch sep (c :: s₀) g := by
            intro g hgA
            rw [hs_eq]
            have h1 := fieldMatch_block_iff sep g f (HA g hgA) (HA f hfA) d
              (tok ++ subChars sep A (d :: tok) r) hd
            have h2 := fieldMatch_block_iff sep g f (HA g hgA) (HA f hfA) c0 t' hc0
            exact Bool.coe_iff_coe.1 (h1.trans h2.symm)
          have hfind2 : findAlt sep A
              (f ++ '=' :: ((d :: tok) ++ subChars sep A (d :: tok) r)) = some f := by
            unfold findAlt
            rw [find?_congr' _ _ A hpt]
            exact hfa
          rw [subChars_eq_some hfind2]
          have htokall : ∀ a ∈ (d :: tok), ((a != sep) : Bool) = true := by
            intro a ha
            have h9 : a ≠ sep := fun he => htok (he ▸ ha)
            simpa using h9
          have hhead2 : ∀ a, (subChars sep A (d :: tok) r).head? = some a →
              ((a != sep) : Bool) = false := by
            intro a ha
            rw [subChars_head?] at ha
            have := hrhead a ha
            simpa using this
          rw [drop_pair f ((d :: tok) ++ subChars sep A (d :: tok) r)]
          rw [dropWhile_append_all _ (d :: tok) (subChars sep A (d :: tok) r) htokall]
          rw [dropWhile_eq_self_of_head _ _ hhead2]
          rw [ih r hlen]

/-! ### Behaviour on well-formed `key=value` pair lists -/

theorem joinChars_single (j x : List Char) : joinChars j [x] = x := rfl

theorem joinChars_cons_cons (j x y : List Char) (ys : List (List Char)) :
    joinChars j (x :: y :: ys) = x ++ j ++ joinChars j (y :: ys) := rfl

/-- No alternative can match at a position strictly inside a value (a
`=`-free run whose continuation starts with the separator or ends the
text), for separator-free and `=`-free alternative names. -/
theorem fieldMatch_value_false (sep : Char) (hsep : sep ≠ '=') (w r : List Char)
    (hw_eq : '=' ∉ w) (hr : ∀ a, r.head? = some a → a = sep)
    (f : List Char) (hf_eq : '=' ∉ f) (hf_sep : sep ∉ f) :
    fieldMatch sep (w ++ r) f = false := by
  cases hfm : fieldMatch sep (w ++ r) f
  · rfl
  · exfalso
    unfold fieldMatch at hfm
    obtain ⟨hp, _⟩ := (Bool.and_eq_true _ _).mp hfm
    rcases pfx_split w (f ++ ['=']) r hp with h1 | ⟨x₂, hx, h2⟩
    · obtain ⟨t, ht⟩ := (pfx_iff _ _).1 h1
      apply hw_eq
      rw [ht]; simp
    · cases x₂ with
      | nil =>
        apply hw_eq
        simp only [List.append_nil] at hx
        rw [← hx]; simp
      | cons b x' =>
        obtain ⟨t, ht⟩ := (pfx_iff _ _).1 h2
        have hb : b = sep := hr b (by rw [ht]; rfl)
        have hbmem : b ∈ f ++ ['='] := by
          rw [hx]; exact List.mem_append_right w (List.mem_cons_self b x')
        rcases List.mem_append.1 hbmem with h3 | h3
        · exact hf_sep (hb ▸ h3)
        · have hbe : b = '=' := by simpa using h3
          exact hsep (hb ▸ hbe)

/-- Scanning a matched pair `c=v` (with `c` a selected field) replaces the
value: `c=v<rest>` becomes `c=token<rest>` with the scan resuming on
`rest`. -/
theorem subChars_matched_pair (sep : Char) (A : List (List Char)) (token : List Char)
    (HA : ∀ f ∈ A, f ≠ [] ∧ '=' ∉ f ∧ sep ∉ f)
    (c v rest : List Char) (hc_eq : '=' ∉ c) (hcA : c ∈ A)
    (hv_ne : v ≠ []) (hv_sep : sep ∉ v)
    (hrest : ∀ a, rest.head? = some a → a = sep) :
    subChars sep A token (c ++ '=' :: (v ++ rest))
      = c ++ '=' :: (token ++ subChars sep A token rest) := by
  obtain ⟨v0, v', rfl⟩ : ∃ v0 v', v = v0 :: v' := by
    cases v with
    | nil => exact absurd rfl hv_ne
    | cons a b => exact ⟨a, b, rfl⟩
  have hv0 : v0 ≠ sep := fun he => hv_sep (he ▸ List.mem_cons_self v0 v')
  have hm : fieldMatch sep (c ++ '=' :: ((v0 :: v') ++ rest)) c = true :=
    fieldMatch_intro sep c v0 (v' ++ rest) hv0
  have hall : ∀ g ∈ A, fieldMatch sep (c ++ '=' :: ((v0 :: v') ++ rest)) g = true →
      g = c := by
    intro g hgA hgm
    unfold fieldMatch at hgm
    exact pfx_eq_of_eqFree g c _ (HA g hgA).2.1 hc_eq ((Bool.and_eq_true _ _).mp hgm).1
  have hfind : findAlt sep A (c ++ '=' :: ((v0 :: v') ++ rest)) = some c :=
    find?_first_eq _ c A hcA hm hall
  rw [subChars_eq_some hfind, drop_pair]
  have hall' : ∀ a ∈ (v0 :: v'), ((a != sep) : Bool) = true := by
    intro a ha
    have h9 : a ≠ sep := fun he => hv_sep (he ▸ ha)
    simpa using h9
  have hdw : ((v0 :: v') ++ rest).dropWhile (fun a => a != sep) = rest := by
    rw [dropWhile_append_all _ (v0 :: v') rest hall']
    apply dropWhile_eq_self_of_head
    intro a ha
    have := hrest a ha
    simpa using this
  rw [hdw]

/-- Scanning an unmatched pair `c=v` (with `c` not selected, and no
selected name a strict suffix of `c`) copies it verbatim and resumes on
the continuation. -/
theorem subChars_unmatched_pair (sep : Char) (A : List (List Char)) (token : List Char)
    (hsep : sep ≠ '=')
    (HA : ∀ f ∈ A, f ≠ [] ∧ '=' ∉ f ∧ sep ∉ f)
    (c v rest : List Char) (hc_eq : '=' ∉ c) (hv_eq : '=' ∉ v) (hv_sep : sep ∉ v)
    (hcA : c ∉ A)
    (hsuf : ∀ f ∈ A, f <:+ c → f = c)
    (hrest : ∀ a, rest.head? = some a → a = sep) :
    subChars sep A token ((c ++ '=' :: v) ++ rest)
      = (c ++ '=' :: v) ++ subChars sep A token rest := by
  apply subChars_append_of_no_match
  intro w hw hwne
  apply List.find?_eq_none.2
  intro f hfA hcontra
  obtain ⟨hf_ne, hf_eq, hf_sep⟩ := HA f hfA
  rcases suffix_append_cases c ('=' :: v) w hw with h1 | ⟨w', rfl, hw'⟩
  · rcases List.suffix_cons_iff.1 h1 with h2 | h2
    · subst h2
      obtain ⟨c1, t1, hteq, hc1⟩ := fieldMatch_destruct hcontra
      cases f with
      | nil => exact hf_ne rfl
      | cons a f' =>
        simp only [List.cons_append] at hteq
        injection hteq with h3 _
        exact hf_eq (by rw [h3]; exact List.mem_cons_self a f')
    · have hw_eq2 : '=' ∉ w := fun hx => hv_eq (h2.subset hx)
      have hfalse := fieldMatch_value_false sep hsep w rest hw_eq2 hrest f hf_eq hf_sep
      rw [hfalse] at hcontra
      cases hcontra
  · have hw'free : '=' ∉ w' := fun hx => hc_eq (hw'.subset hx)
    have htext : (w' ++ '=' :: v) ++ rest = w' ++ '=' :: (v ++ rest) := by simp
    rw [htext] at hcontra
    have h9 : f = w' := by
      unfold fieldMatch at hcontra
      exact pfx_eq_of_eqFree f w' _ hf_eq hw'free ((Bool.and_eq_true _ _).mp hcontra).1
    rw [h9] at hfA
    rw [hsuf w' hfA hw'] at hfA
    exact hcA hfA

/-- Scanning the joiner `sep :: ws` between two pairs copies it verbatim,
for alternative names that are nonempty, separator-free, and never start
with a character of `ws`. -/
theorem subChars_joiner (sep : Char) (A : List (List Char)) (token : List Char)
    (hsep : sep ≠ '=')
    (HA : ∀ f ∈ A, f ≠ [] ∧ '=' ∉ f ∧ sep ∉ f)
    (ws body : List Char)
    (hws : ∀ f ∈ A, ∀ b ∈ ws, f.head? ≠ some b) :
    subChars sep A token ((sep :: ws) ++ body)
      = (sep :: ws) ++ subChars sep A token body := by
  apply subChars_append_of_no_match
  intro w hw hwne
  apply List.find?_eq_none.2
  intro f hfA hcontra
  obtain ⟨hf_ne, hf_eq, hf_sep⟩ := HA f hfA
  rcases List.suffix_cons_iff.1 hw with h1 | h1
  · subst h1
    cases f with
    | nil => exact hf_ne rfl
    | cons a f' =>
      unfold fieldMatch at hcontra
      obtain ⟨hp, _⟩ := (Bool.and_eq_true _ _).mp hcontra
      have has : a = sep := by
        simp only [List.cons_append, pfx, Bool.and_eq_true, beq_iff_eq] at hp
        exact hp.1
      exact hf_sep (by rw [← has]; exact List.mem_cons_self a f')
  · cases w with
    | nil => exact absurd rfl hwne
    | cons b w'' =>
      have hbws : b ∈ ws := h1.subset (List.mem_cons_self b w'')
      cases f with
      | nil => exact hf_ne rfl
      | cons a f' =>
        unfold fieldMatch at hcontra
        obtain ⟨hp, _⟩ := (Bool.and_eq_true _ _).mp hcontra
        have hab : a = b := by
          simp only [List.cons_append, pfx, Bool.and_eq_true, beq_iff_eq] at hp
          exact hp.1
        exact hws (a :: f') hfA b hbws (congrArg some hab)

/-- Scanning a message built of `key=value` pairs joined by `sep :: ws`
replaces exactly the values of the selected keys by the token, keeping all
keys, separators and unselected values verbatim. -/
theorem subChars_pairs (sep : Char) (A : List (List Char)) (token : List Char)
    (hsep : sep ≠ '=')
    (HA : ∀ f ∈ A, f ≠ [] ∧ '=' ∉ f ∧ sep ∉ f)
    (ws : List Char) (hws : ∀ f ∈ A, ∀ b ∈ ws, f.head? ≠ some b) :
    ∀ L : List (List Char × List Char),
      (∀ p ∈ L, '=' ∉ p.1 ∧ '=' ∉ p.2 ∧ sep ∉ p.2) →
      (∀ f ∈ A, ∀ p ∈ L, f <:+ p.1 → f = p.1) →
      (∀ p ∈ L, p.1 ∈ A → p.2 ≠ []) →
      subChars sep A token (joinChars (sep :: ws) (L.map pairChars)) =
        joinChars (sep :: ws)
          (L.map fun p => p.1 ++ '=' :: (if p.1 ∈ A then token else p.2)) := by
  intro L
  induction L with
  | nil => intro _ _ _; simp [joinChars, subChars_nil]
  | cons p L ih =>
    intro hL hsuf hval
    obtain ⟨c, v⟩ := p
    have hpc : '=' ∉ c := (hL (c, v) (List.mem_cons_self _ _)).1
    have hpv : '=' ∉ v := (hL (c, v) (List.mem_cons_self _ _)).2.1
    have hpvs : sep ∉ v := (hL (c, v) (List.mem_cons_self _ _)).2.2
    have hsufc : ∀ f ∈ A, f <:+ c → f = c := fun f hf hs =>
      hsuf f hf (c, v) (List.mem_cons_self _ _) hs
    cases L with
    | nil =>
      simp only [List.map_cons, List.map_nil]
      show subChars sep A token (c ++ '=' :: v)
        = c ++ '=' :: (if c ∈ A then token else v)
      by_cases hc : c ∈ A
      · rw [if_pos hc]
        have hv_ne : v ≠ [] := hval (c, v) (List.mem_cons_self _ _) hc
        have h := subChars_matched_pair sep A token HA c v [] hpc hc hv_ne hpvs
          (by intro a ha; cases ha)
        simp only [List.append_nil, subChars_nil] at h
        exact h
      · rw [if_neg hc]
        have h := subChars_unmatched_pair sep A token hsep HA c v [] hpc hpv hpvs hc
          hsufc (by intro a ha; cases ha)
        simp only [List.append_nil, subChars_nil] at h
        exact h
    | cons q L' =>
      have hL' : ∀ p ∈ (q :: L'), '=' ∉ p.1 ∧ '=' ∉ p.2 ∧ sep ∉ p.2 :=
        fun p hp => hL p (List.mem_cons_of_mem _ hp)
      have hsuf' : ∀ f ∈ A, ∀ p ∈ (q :: L'), f <:+ p.1 → f = p.1 :=
        fun f hf p hp => hsuf f hf p (List.mem_cons_of_mem _ hp)
      have hval' : ∀ p ∈ (q :: L'), p.1 ∈ A → p.2 ≠ [] :=
        fun p hp => hval p (List.mem_cons_of_mem _ hp)
      have ih' := ih hL' hsuf' hval'
      simp only [List.map_cons] at ih' ⊢
      rw [joinChars_cons_cons, joinChars_cons_cons]
      have hrest : ∀ a, ((sep :: ws)
          ++ joinChars (sep :: ws) (pairChars q :: L'.map pairChars)).head?
          = some a → a = sep := by
        intro a ha
        have h0 : some sep = some a := ha
        injection h0 with h0
        exact h0.symm
      by_cases hc : c ∈ A
      · have hv_ne : v ≠ [] := hval (c, v) (List.mem_cons_self _ _) hc
        have harg : pairChars (c, v) ++ (sep :: ws)
            ++ joinChars (sep :: ws) (pairChars q :: L'.map pairChars)
            = c ++ '=' :: (v ++ ((sep :: ws)
              ++ joinChars (sep :: ws) (pairChars q :: L'.map pairChars))) := by
          simp [pairChars]
        rw [harg]
        rw [subChars_matched_pair sep A token HA c v _ hpc hc hv_ne hpvs hrest]
        rw [subChars_joiner sep A token hsep HA ws _ hws]
        rw [ih']
        rw [if_pos hc]
        simp
      · have harg : pairChars (c, v) ++ (sep :: ws)
            ++ joinChars (sep :: ws) (pairChars q :: L'.map pairChars)
            = (c ++ '=' :: v) ++ ((sep :: ws)
              ++ joinChars (sep :: ws) (pairChars q :: L'.map pairChars)) := by
          simp [pairChars]
        rw [harg]
        rw [subChars_unmatched_pair sep A token hsep HA c v _ hpc hpv hpvs hc hsufc hrest]
        rw [subChars_joiner sep A token hsep HA ws _ hws]
        rw [ih']
        rw [if_neg hc]
        simp

/-! ### Bridging between strings and character lists -/

theorem data_append (a b : String) : (a ++ b).data = a.data ++ b.data := rfl

theorem joinStrings_data (j : String) : ∀ (xs : List String),
    (joinStrings j xs).data = joinChars j.data (xs.map String.data) := by
  intro xs
  induction xs with
  | nil => rfl
  | cons x xs ih =>
    cases xs with
    | nil => rfl
    | cons y ys =>
      show (x ++ j ++ joinStrings j (y :: ys)).data = _
      rw [data_append, data_append, ih]
      rfl

theorem pair_data (h v : String) : (h ++ "=" ++ v).data = h.data ++ '=' :: v.data := by
  rw [data_append, data_append]
  rw [show ("=" : String).data = ['='] from rfl]
  rw [← append_pair]

theorem mem_map_data (h : String) (S : List String) :
    h ∈ S ↔ h.data ∈ S.map String.data := by
  constructor
  · intro hh; exact List.mem_map_of_mem _ hh
  · intro hh
    obtain ⟨x, hx, he⟩ := List.mem_map.1 hh
    rwa [String.ext he] at hx

theorem zipWith_eq_map_zip {α β γ : Type} (f : α → β → γ) :
    ∀ (l1 : List α) (l2 : List β),
      List.zipWith f l1 l2 = (List.zip l1 l2).map fun p => f p.1 p.2 := by
  intro l1
  induction l1 with
  | nil => intro l2; rfl
  | cons a l ih =>
    intro l2
    cases l2 with
    | nil => rfl
    | cons b m =>
      simp only [List.zipWith_cons_cons, List.zip_cons_cons, List.map_cons, ih]

theorem zipWith_getElem? {α β γ : Type} (f : α → β → γ) :
    ∀ (l1 : List α) (l2 : List β) (i : Nat) (a : α) (b : β),
      l1[i]? = some a → l2[i]? = some b →
      (List.zipWith f l1 l2)[i]? = some (f a b) := by
  intro l1
  induction l1 with
  | nil => intro l2 i a b h1 _; simp at h1
  | cons x l ih =>
    intro l2 i a b h1 h2
    cases l2 with
    | nil => simp at h2
    | cons y m =>
      cases i with
      | zero =>
        simp only [List.getElem?_cons_zero, Option.some.injEq] at h1 h2
        simp [List.zipWith_cons_cons, h1, h2]
      | succ i =>
        simp only [List.getElem?_cons_succ] at h1 h2
        simp only [List.zipWith_cons_cons, List.getElem?_cons_succ]
        exact ih m i a b h1 h2

theorem alts_of_ne_nil (fs : List (List Char)) (h : fs ≠ []) : alts fs = fs := by
  cases fs with
  | nil => exact absurd rfl h
  | cons x l => rfl

theorem alts_eqFree (fields : List String) (hf : ∀ f ∈ fields, '=' ∉ f.data) :
    ∀ g ∈ alts (fields.map String.toList), '=' ∉ g := by
  cases fields with
  | nil =>
    intro g hg
    simp only [List.map_nil, alts] at hg
    rcases List.mem_cons.1 hg with rfl | hg2
    · simp
    · cases hg2
  | cons x fs =>
    intro g hg
    simp only [List.map_cons] at hg
    rw [show alts (x.toList :: fs.map String.toList)
      = x.toList :: fs.map String.toList from rfl] at hg
    rcases List.mem_cons.1 hg with rfl | hg2
    · exact hf x (List.mem_cons_self _ _)
    · obtain ⟨y, hy, he⟩ := List.mem_map.1 hg2
      rw [← he]
      exact hf y (List.mem_cons_of_mem _ hy)

/-- String-level consequence of `subChars_pairs`: `filter_datum` on a
message of `key=value` pairs joined by the separator (followed by the
extra joiner characters `ws`) replaces exactly the values of the selected
keys. -/
theorem filter_datum_pairs (S : List String) (token : String) (sep : Char)
    (ws : List Char) (pairs : List (String × String))
    (hsep : sep ≠ '=') (hne : S ≠ [])
    (hS : ∀ f ∈ S, f ≠ "" ∧ '=' ∉ f.data ∧ sep ∉ f.data ∧
      (∀ b ∈ ws, f.data.head? ≠ some b))
    (hpairs : ∀ p ∈ pairs, '=' ∉ p.1.data ∧ '=' ∉ p.2.data ∧ sep ∉ p.2.data)
    (hsuffix : ∀ f ∈ S, ∀ p ∈ pairs, f.data <:+ p.1.data → f = p.1)
    (hval : ∀ p ∈ pairs, p.1 ∈ S → p.2 ≠ "") :
    filter_datum S token
        (joinStrings (String.mk (sep :: ws)) (pairs.map fun p => p.1 ++ "=" ++ p.2)) sep
      = joinStrings (String.mk (sep :: ws))
          (pairs.map fun p => p.1 ++ "=" ++ (if p.1 ∈ S then token else p.2)) := by
  have hA : alts (S.map String.toList) = S.map String.data := by
    cases S with
    | nil => exact absurd rfl hne
    | cons x l => rfl
  apply String.ext
  show subChars sep (alts (S.map String.toList)) token.data
      (joinStrings (String.mk (sep :: ws)) (pairs.map fun p => p.1 ++ "=" ++ p.2)).data
    = (joinStrings (String.mk (sep :: ws))
        (pairs.map fun p => p.1 ++ "=" ++ (if p.1 ∈ S then token else p.2))).data
  rw [hA, joinStrings_data, joinStrings_data, List.map_map, List.map_map]
  have hm1 : pairs.map (String.data ∘ fun p => p.1 ++ "=" ++ p.2)
      = (pairs.map fun p => (p.1.data, p.2.data)).map pairChars := by
    rw [List.map_map]
    apply List.map_congr_left
    intro p _
    exact pair_data p.1 p.2
  have hm2 : pairs.map (String.data ∘ fun p => p.1 ++ "=" ++ (if p.1 ∈ S then token else p.2))
      = (pairs.map fun p => (p.1.data, p.2.data)).map
          (fun p => p.1 ++ '=' :: (if p.1 ∈ S.map String.data then token.data else p.2)) := by
    rw [List.map_map]
    apply List.map_congr_left
    intro p _
    show (p.1 ++ "=" ++ (if p.1 ∈ S then token else p.2)).data
      = p.1.data ++ '=' :: (if p.1.data ∈ S.map String.data then token.data else p.2.data)
    rw [pair_data, apply_ite String.data]
    rw [if_congr (mem_map_data p.1 S) rfl rfl]
  rw [hm1, hm2]
  rw [show (String.mk (sep :: ws)).data = sep :: ws from rfl]
  apply subChars_pairs sep (S.map String.data) token.data hsep
  · intro g hg
    obtain ⟨f, hf, rfl⟩ := List.mem_map.1 hg
    obtain ⟨h1, h2, h3, _⟩ := hS f hf
    refine ⟨fun he => h1 (String.ext he), h2, h3⟩
  · intro g hg b hb
    obtain ⟨f, hf, rfl⟩ := List.mem_map.1 hg
    exact (hS f hf).2.2.2 b hb
  · intro p hp
    obtain ⟨q, hq, rfl⟩ := List.mem_map.1 hp
    exact hpairs q hq
  · intro g hg p hp hsuf
    obtain ⟨f, hf, rfl⟩ := List.mem_map.1 hg
    obtain ⟨q, hq, rfl⟩ := List.mem_map.1 hp
    exact congrArg String.data (hsuffix f hf q hq hsuf)
  · intro p hp hmem
    obtain ⟨q, hq, rfl⟩ := List.mem_map.1 hp
    have hq1 : q.1 ∈ S := (mem_map_data q.1 S).2 hmem
    have := hval q hq hq1
    exact fun he => this (String.ext he)

/-! ### Claim theorems -/

/-- C1 (counterexample): idempotence fails as universally stated.  With the
redaction token `"b;a=c"` (which contains the separator and a `key=value`
pair), a second application of `filter_datum` redacts the pair that the
first application's replacement introduced and changes the string again. -/
theorem filter_datum_idempotence_fails_for_separator_token :
    filter_datum ["a"] "b;a=c" (filter_datum ["a"] "b;a=c" "a=1" ';') ';'
      ≠ filter_datum ["a"] "b;a=c" "a=1" ';' := by decide

/-- C1 (amended): redaction is idempotent for every message provided each
field name contains no `=` character and the redaction token does not
contain the separator character: applying `filter_datum` a second time to
the output of `filter_datum` returns that output unchanged. -/
theorem filter_datum_idempotent (fields : List String) (token msg : String)
    (sep : Char) (hf : ∀ f ∈ fields, '=' ∉ f.data) (htok : sep ∉ token.data) :
    filter_datum fields token (filter_datum fields token msg sep) sep
      = filter_datum fields token msg sep := by
  apply String.ext
  exact subChars_idem sep (alts (fields.map String.toList)) token.toList
    (alts_eqFree fields hf) htok _ _ (Nat.le_refl _)

theorem filter_datum_idempotent_witness :
    filter_datum ["password"] "***"
        (filter_datum ["password"] "***" "password=abc;name=x" ';') ';'
      = filter_datum ["password"] "***" "password=abc;name=x" ';' :=
  filter_datum_idempotent ["password"] "***" "password=abc;name=x" ';'
    (by decide) (by decide)

/-- C2: the spec scenario for `filter_datum` holds exactly. -/
theorem filter_datum_scenario_password_dob :
    filter_datum ["password", "date_of_birth"] "xxx"
      "name=egg;email=eggmin@eggsample.com;password=eggcellent;date_of_birth=12/12/1986;"
      ';'
      = "name=egg;email=eggmin@eggsample.com;password=xxx;date_of_birth=xxx;" := by
  decide

/-- C3 (counterexample): matching is not anchored to the start of a field.
The message `"surname=Jo;"` consists of the single pair with key
`"surname"`, which is not in the field list `["name"]`, yet `filter_datum`
alters it, because the pattern `name=` also matches inside the key
`surname`. -/
theorem filter_datum_not_anchored :
    filter_datum ["name"] "***" "surname=Jo;" ';' = "surname=***;"
      ∧ ("surname=***;" : String) ≠ "surname=Jo;" := by decide

/-- C3 (amended): non-sensitive passthrough holds only under the stronger
condition that no sensitive field name occurs as a suffix of any key (the
matcher is not anchored, so a key that merely ends in a sensitive name is
altered): for messages made of `key=value` pairs (keys and values free of
`=` and of the separator) in which no field of the nonempty field list is
a suffix of any key, `filter_datum` returns the message unchanged. -/
theorem filter_datum_nonsensitive_passthrough (fields : List String) (token : String)
    (sep : Char) (pairs : List (String × String))
    (hsep : sep ≠ '=') (hne : fields ≠ [])
    (hf : ∀ f ∈ fields, f ≠ "" ∧ '=' ∉ f.data ∧ sep ∉ f.data)
    (hpairs : ∀ p ∈ pairs, '=' ∉ p.1.data ∧ '=' ∉ p.2.data ∧ sep ∉ p.2.data)
    (hanch : ∀ f ∈ fields, ∀ p ∈ pairs, ¬ f.data <:+ p.1.data) :
    filter_datum fields token
        (joinStrings (String.mk [sep]) (pairs.map fun p => p.1 ++ "=" ++ p.2)) sep
      = joinStrings (String.mk [sep]) (pairs.map fun p => p.1 ++ "=" ++ p.2) := by
  have h2 := filter_datum_pairs fields token sep [] pairs hsep hne
    (fun f hfm => ⟨(hf f hfm).1, (hf f hfm).2.1, (hf f hfm).2.2,
      fun b hb => absurd hb (List.not_mem_nil b)⟩)
    hpairs
    (fun f hfm p hp hsuf => absurd hsuf (hanch f hfm p hp))
    (fun p hp hmem => absurd (List.suffix_refl p.1.data) (hanch p.1 hmem p hp))
  rw [h2]
  apply congrArg
  apply List.map_congr_left
  intro p hp
  have hnot : p.1 ∉ fields := fun hmem =>
    (hanch p.1 hmem p hp) (List.suffix_refl p.1.data)
  rw [if_neg hnot]

theorem filter_datum_nonsensitive_passthrough_witness :
    filter_datum ["name"] "***"
        (joinStrings (String.mk [';'])
          ([("color", "red"), ("id", "7")].map fun p => p.1 ++ "=" ++ p.2)) ';'
      = joinStrings (String.mk [';'])
          ([("color", "red"), ("id", "7")].map fun p => p.1 ++ "=" ++ p.2) :=
  filter_datum_nonsensitive_passthrough ["name"] "***" ';'
    [("color", "red"), ("id", "7")] (by decide) (by decide) (by decide) (by decide)
    (by decide)

/-- C4 (code behaviour at the failing input): with an empty field list the
compiled pattern is `()=([^;]+)` (the joined alternation is empty), which
matches every `=value` occurrence with an empty key, so the function is
not a no-op: `filter_datum([], "xxx", "a=b", ";")` returns `"a=xxx"`, not
`"a=b"`. -/
theorem filter_datum_empty_fields_rewrites :
    filter_datum [] "xxx" "a=b" ';' = "a=xxx" := by decide

/-- C5: a null-valued column renders as `column=` (empty string after the
`=`), never as a placeholder word: position `i` of the serialized pair
list is exactly `h ++ "="`, and the row message is those pairs joined with
`"; "`. -/
theorem row_to_message_null_empty (hdrs : List String) (row : List (Option String))
    (i : Nat) (h : String)
    (hh : hdrs[i]? = some h) (hr : row[i]? = some none) :
    (List.zipWith (fun hd v => hd ++ "=" ++ toText v) hdrs row)[i]? = some (h ++ "=")
    ∧ row_to_message row hdrs
      = joinStrings "; " (List.zipWith (fun hd v => hd ++ "=" ++ toText v) hdrs row) := by
  constructor
  · have h1 : (List.zipWith (fun hd v => hd ++ "=" ++ toText v) hdrs row)[i]?
        = some (h ++ "=" ++ toText none) :=
      zipWith_getElem? (fun hd v => hd ++ "=" ++ toText v) hdrs row i h none hh hr
    have he : h ++ "=" ++ toText none = h ++ "=" := String.append_empty (h ++ "=")
    rw [he] at h1
    exact h1
  · show format_row (row.map toText) hdrs = _
    unfold format_row
    rw [List.zipWith_map_right]

theorem row_to_message_null_empty_witness :
    (List.zipWith (fun hd v => hd ++ "=" ++ toText v) ["phone"]
        ([none] : List (Option String)))[0]? = some ("phone" ++ "=")
    ∧ row_to_message [none] ["phone"]
      = joinStrings "; " (List.zipWith (fun hd v => hd ++ "=" ++ toText v) ["phone"]
          ([none] : List (Option String))) :=
  row_to_message_null_empty ["phone"] [none] 0 "phone" (by decide) (by decide)

/-- C6: substring field names do not cross-contaminate — ordered
alternation tries every alternative at each position before advancing, so
`surname=Jo` is matched by the `surname` alternative as a whole. -/
theorem filter_datum_substring_fields_scenario :
    filter_datum ["name", "surname"] "***" "surname=Jo;name=Ann;" ';'
      = "surname=***;name=***;" := by decide

/-- C7 (counterexample): the round trip fails as universally stated.  For
the record with the single column `"a"` and empty value, the serializer
produces `"a="`, and redacting with the subset `["a"]` leaves the value
unreplaced (the value pattern `[^;]+` needs at least one character), while
the claim demands `"a=***"`. -/
theorem format_row_roundtrip_fails_for_empty_value :
    filter_datum ["a"] "***" (format_row [""] ["a"]) ';' = "a="
      ∧ ("a=" : String) ≠ "a=***" := by decide

/-- C7 (amended): for well-formed records — column names nonempty and free
of `=`, `;`, and spaces, values free of `=` and `;` — and a nonempty
subset of the columns none of which is a suffix of a different column and
whose values are nonempty, redacting the serialized row yields exactly the
`"; "`-joined pairs with the subset's values replaced by the token and all
other pairs unchanged. -/
theorem format_row_roundtrip (hdrs vals S : List String) (token : String)
    (hne : S ≠ [])
    (hS : ∀ f ∈ S, f ≠ "" ∧ '=' ∉ f.data ∧ ';' ∉ f.data ∧ ' ' ∉ f.data)
    (hhdr : ∀ h ∈ hdrs, '=' ∉ h.data)
    (hvals : ∀ v ∈ vals, '=' ∉ v.data ∧ ';' ∉ v.data)
    (hsuffix : ∀ f ∈ S, ∀ h ∈ hdrs, f.data <:+ h.data → f = h)
    (hval : ∀ p ∈ List.zip hdrs vals, p.1 ∈ S → p.2 ≠ "") :
    filter_datum S token (format_row vals hdrs) ';'
      = joinStrings "; " (List.zipWith
          (fun h v => h ++ "=" ++ (if h ∈ S then token else v)) hdrs vals) := by
  have h1 : format_row vals hdrs = joinStrings (String.mk (';' :: [' ']))
      ((List.zip hdrs vals).map fun p => p.1 ++ "=" ++ p.2) := by
    unfold format_row
    rw [zipWith_eq_map_zip]
  rw [h1]
  have h2 := filter_datum_pairs S token ';' [' '] (List.zip hdrs vals) (by decide) hne
    (fun f hf => ⟨(hS f hf).1, (hS f hf).2.1, (hS f hf).2.2.1, by
      intro b hb
      have hbsp : b = ' ' := by
        rcases List.mem_cons.1 hb with h3 | h3
        · exact h3
        · cases h3
      intro hhd
      exact (hS f hf).2.2.2 (hbsp ▸ head?_mem hhd)⟩)
    (fun p hp => by
      obtain ⟨hp1, hp2⟩ := List.of_mem_zip hp
      exact ⟨hhdr p.1 hp1, (hvals p.2 hp2).1, (hvals p.2 hp2).2⟩)
    (fun f hf p hp hsuf => hsuffix f hf p.1 (List.of_mem_zip hp).1 hsuf)
    hval
  rw [h2, zipWith_eq_map_zip]

theorem format_row_roundtrip_witness :
    filter_datum ["email", "ssn", "password"] "***"
        (format_row ["Bob", "bob@dylan.com", "000-123-0000", "bobby2019"]
          ["name", "email", "ssn", "password"]) ';'
      = "name=Bob; email=***; ssn=***; password=***" :=
  (format_row_roundtrip ["name", "email", "ssn", "password"]
    ["Bob", "bob@dylan.com", "000-123-0000", "bobby2019"]
    ["email", "ssn", "password"] "***" (by decide) (by decide) (by decide) (by decide)
    (by decide) (by decide)).trans (by decide)

/-- C8: frame condition of `RedactingFormatter.format` — it replaces only
the record's message body (with its redaction by `filter_datum` under the
formatter's `"***"` token and `;` separator) and leaves logger name,
severity level, timestamp, and source context unchanged; the rendered line
is the layout rendering of the updated record. -/
theorem redacting_formatter_frame (fields : List String) (r : LogRecord) :
    (RedactingFormatter.format fields r).1.name = r.name
    ∧ (RedactingFormatter.format fields r).1.levelname = r.levelname
    ∧ (RedactingFormatter.format fields r).1.asctime = r.asctime
    ∧ (RedactingFormatter.format fields r).1.pathname = r.pathname
    ∧ (RedactingFormatter.format fields r).1.lineno = r.lineno
    ∧ (RedactingFormatter.format fields r).1.msg = filter_datum fields "***" r.msg ';'
    ∧ (RedactingFormatter.format fields r).2
        = renderHolberton (RedactingFormatter.format fields r).1 :=
  ⟨rfl, rfl, rfl, rfl, rfl, rfl, rfl⟩

/-- C9: `filter_datum` is total (the model returns a string for every
input) and any leading segment at whose positions no alternative of the
pattern matches is copied to the output verbatim and in place, with the
scan continuing on the rest: malformed, non-conforming text passes
through unchanged. -/
theorem filter_datum_malformed_passthrough (fields : List String) (token : String)
    (sep : Char) (u : List Char) (y : String)
    (h : ∀ i, i < u.length →
      findAlt sep (alts (fields.map String.toList)) (u.drop i ++ y.data) = none) :
    filter_datum fields token (String.mk (u ++ y.data)) sep
      = String.mk (u ++ (filter_datum fields token y sep).data) := by
  apply String.ext
  show subChars sep (alts (fields.map String.toList)) token.data (u ++ y.data)
    = u ++ subChars sep (alts (fields.map String.toList)) token.data y.data
  apply subChars_append_of_no_match
  intro w hw hwne
  obtain ⟨z, hz⟩ := hw
  have hdrop : u.drop z.length = w := by rw [← hz, List.drop_left]
  have hlt : z.length < u.length := by
    have hlen : u.length = z.length + w.length := by
      rw [← hz, List.length_append]
    cases w with
    | nil => exact absurd rfl hwne
    | cons a b =>
      rw [hlen]
      simp [List.length_cons]
  rw [← hdrop]
  exact h z.length hlt

theorem filter_datum_malformed_passthrough_witness :
    filter_datum ["a"] "x" (String.mk (['@', '@'] ++ ("a=b" : String).data)) ';'
      = String.mk (['@', '@'] ++ (filter_datum ["a"] "x" "a=b" ';').data) :=
  filter_datum_malformed_passthrough ["a"] "x" ';' ['@', '@'] "a=b" (by decide)

/-- C10: repeated field names are all redacted.  For a message consisting
of the pair `a=v` repeated for every value in `vs` (well-formed names and
values), the substitution is global: every occurrence's value is replaced
by the token, not only the first. -/
theorem filter_datum_redacts_repeated_fields (a token : String) (sep : Char)
    (vs : List String) (hsep : sep ≠ '=')
    (ha : a ≠ "" ∧ '=' ∉ a.data ∧ sep ∉ a.data)
    (hvs : ∀ v ∈ vs, v ≠ "" ∧ '=' ∉ v.data ∧ sep ∉ v.data) :
    filter_datum [a] token
        (joinStrings (String.mk [sep]) (vs.map fun v => a ++ "=" ++ v)) sep
      = joinStrings (String.mk [sep]) (vs.map fun _ => a ++ "=" ++ token) := by
  have h2 := filter_datum_pairs [a] token sep [] (vs.map fun v => (a, v)) hsep
    (by simp)
    (fun f hf => by
      have hfa : f = a := by
        rcases List.mem_cons.1 hf with h3 | h3
        · exact h3
        · cases h3
      subst hfa
      exact ⟨ha.1, ha.2.1, ha.2.2, fun b hb => absurd hb (List.not_mem_nil b)⟩)
    (fun p hp => by
      obtain ⟨v, hv, rfl⟩ := List.mem_map.1 hp
      exact ⟨ha.2.1, (hvs v hv).2.1, (hvs v hv).2.2⟩)
    (fun f hf p hp hsuf => by
      obtain ⟨v, hv, rfl⟩ := List.mem_map.1 hp
      have hfa : f = a := by
        rcases List.mem_cons.1 hf with h3 | h3
        · exact h3
        · cases h3
      exact hfa)
    (fun p hp hmem => by
      obtain ⟨v, hv, rfl⟩ := List.mem_map.1 hp
      exact (hvs v hv).1)
  rw [List.map_map] at h2
  rw [show ((fun p : String × String => p.1 ++ "=" ++ p.2) ∘ fun v => (a, v))
    = fun v => a ++ "=" ++ v from rfl] at h2
  rw [h2, List.map_map]
  apply congrArg
  apply List.map_congr_left
  intro v _
  show a ++ "=" ++ (if a ∈ [a] then token else v) = a ++ "=" ++ token
  rw [if_pos (List.mem_cons_self a [])]

theorem filter_datum_redacts_repeated_fields_witness :
    filter_datum ["a"] "***"
        (joinStrings (String.mk [';']) (["1", "2"].map fun v => "a" ++ "=" ++ v)) ';'
      = joinStrings (String.mk [';']) (["1", "2"].map fun _ => "a" ++ "=" ++ "***") :=
  filter_datum_redacts_repeated_fields "a" "***" ';' ["1", "2"] (by decide)
    (by decide) (by decide)
